import Mathlib

/-!
# Verification of the `gibme-c/crypto` specification claims

This file embeds, shallowly, the parts of the C++ library that the frozen
claims C1..C10 are about, and proves or refutes each claim.

Modelling conventions, used throughout:

* The Ed25519 scalar field (`crypto_scalar_t`, 32 bytes little-endian reduced
  mod the subgroup order `l`) is embedded as `ZMod ell`.  A canonical scalar
  is exactly an element of `ZMod ell`; the byte-level representation is its
  little-endian value, so "the low 8 bytes" of a scalar `s` is `s.val % 2^64`.
* The prime-order subgroup of curve points is cyclic of order `l`, so curve
  points (`crypto_point_t`) are embedded by their discrete logarithm with
  respect to the base point: `Pt := ZMod ell`, `G := 1`, point addition is
  `+`, and `scalar * point` is `*`.  The secondary generator `H` is `η • G`
  for an unknown unit `η`, which theorems take as a parameter.
* The external hash primitives (SHA3, the hash-to-point `Hp`) are out of
  scope of the repository and are taken as function parameters of the
  definitions that consume them.
* C++ functions that `throw` are embedded as `Option`-valued functions
  returning `none` on the throwing paths; functions that loop on fresh
  randomness (`goto try_again`) take the successful random draw as an
  explicit argument, with the loop's exit conditions became `none`-guards.
-/

/-- The order of the prime subgroup of Ed25519:
`l = 2^252 + 27742317777372353535851937790883648493`. -/
def ell : Nat := 7237005577332262213973186563042994240857116359379907606001950938285454250989

instance : NeZero ell := ⟨by norm_num [ell]⟩

/-- `crypto_scalar_t`: integers mod `l` (canonical scalars). -/
abbrev Scalar : Type := ZMod ell

/-- `crypto_point_t` restricted to the prime-order subgroup, represented by
the discrete logarithm with respect to the base point `G`. -/
abbrev Pt : Type := ZMod ell

/-- The base point `G`, i.e. discrete log 1. -/
def G : Pt := 1

/-- The constant `Crypto::INV_EIGHT = 8^{-1} mod l` (a fixed scalar constant
in the library). -/
def INV_EIGHT : Scalar :=
  2713877091499598330239944961141122840321418634767465352250731601857045344121

/-- The constant `Crypto::EIGHT`. -/
def EIGHT : Scalar := 8

/-!
## Scalar predicates (`crypto_scalar_t`)

`crypto_scalar_t::valid(allow_zero = false)` is `check() && !empty()`: the
scalar is canonical and not the zero scalar.  In the embedding every
`Scalar` is canonical, so `valid` is the non-zero test.
-/

/-- `crypto_scalar_t::valid()` (with the default `allow_zero = false`). -/
def scalar_valid (s : Scalar) : Bool := decide (s ≠ 0)

/-- Modelled from the spec: `sc_isnonzero` is part of the external ed25519
arithmetic (not in this repository's sources); per its standard contract it
returns `0` when the 32 input bytes are all zero, and a non-zero value
otherwise. -/
def sc_isnonzero (s : Scalar) : Nat := if s = 0 then 0 else 1

/-- `crypto_scalar_t::is_nonzero()`, which returns `sc_isnonzero(bytes) == 0`
(src/src/types/crypto_scalar_t.cpp:477-480). -/
def scalar_is_nonzero (s : Scalar) : Bool := sc_isnonzero s == 0

/-!
## Point predicates (`crypto_point_t`)

`crypto_point_t::empty()` compares against the default-constructed point,
whose bytes are `z_point = {0x01, 0x00, ...}` — the identity `(0, 1)`
(crypto_point_t.cpp:32-38 and the `empty()` body).  In the discrete-log
model every `Pt` decompresses and lies in the prime-order subgroup, so
`check()` and the cofactor-residue test hold; the `!empty()` conjunct of
both predicates below is the non-identity test `p ≠ 0`.
-/

/-- `crypto_point_t::valid()` with the default `allow_identity = false`:
`check() && !empty()` (crypto_point_t.cpp:286-294). -/
def point_valid (p : Pt) : Bool := decide (p ≠ 0)

/-- `crypto_point_t::check_subgroup()`: the cofactor-residue check plus
`!empty()` (crypto_point_t.cpp:163-170). -/
def point_check_subgroup (p : Pt) : Bool := decide (p ≠ 0)

/-!
## The single-signer Schnorr signature (`Crypto::Signature`)

`src/src/signatures/signature.cpp`.  The Fiat-Shamir transcript
`scalar_transcript_t(SIGNATURE_DOMAIN_0, message_digest, public_key, point)`
is a SHA3 computation over external serialization; it enters the embedding
as the function parameter `sigHash digest P point`.  Message digests are
byte strings, embedded as `List Nat`.
-/

/-- `crypto_signature_t`: the `(L, R)` scalar pair. -/
structure crypto_signature_t where
  L : Scalar
  R : Scalar
deriving DecidableEq

/-- `Crypto::Signature::check_signature` (signature.cpp:33-57):
rejects a zero `L` or `R`, recomputes `point = L·P + R·G`, rebuilds the
transcript challenge, rejects a zero challenge, and returns
`(challenge - L).is_nonzero()` — which by `sc_isnonzero`'s contract is the
test `challenge = L`. -/
def check_signature (sigHash : List Nat → Pt → Pt → Scalar) (message_digest : List Nat)
    (public_key : Pt) (signature : crypto_signature_t) : Bool :=
  if ¬(scalar_valid signature.L ∧ scalar_valid signature.R) then false
  else
    let point : Pt := signature.L * public_key + signature.R * G
    let challenge := sigHash message_digest public_key point
    if ¬scalar_valid challenge then false
    else scalar_is_nonzero (challenge - signature.L)

/-- `Crypto::Signature::prepare_signature` (signature.cpp:86-116).
`alpha_scalar` is the challenge of a transcript over fresh randomness; the
embedding receives the draw produced by the `try_again` loop and turns the
loop's retry conditions into `none`-guards. -/
def prepare_signature (sigHash : List Nat → Pt → Pt → Scalar) (message_digest : List Nat)
    (public_key : Pt) (alpha_scalar : Scalar) : Option crypto_signature_t :=
  if ¬scalar_valid alpha_scalar then none
  else
    let point : Pt := alpha_scalar * G
    let L := sigHash message_digest public_key point
    if ¬scalar_valid L then none
    else some ⟨L, alpha_scalar⟩

/-- `Crypto::Signature::complete_signature` (signature.cpp:59-72): requires
non-zero `L` and `R` and replaces `R` by `R - L·s`. -/
def complete_signature (signing_scalar : Scalar) (signature : crypto_signature_t) :
    Option crypto_signature_t :=
  if ¬scalar_valid signature.L then none
  else if ¬scalar_valid signature.R then none
  else some ⟨signature.L, signature.R - signature.L * signing_scalar⟩

/-- `Crypto::Signature::generate_signature` (signature.cpp:74-84):
requires a non-zero secret key, computes `P = x·G`, prepares, completes. -/
def generate_signature (sigHash : List Nat → Pt → Pt → Scalar) (message_digest : List Nat)
    (secret_key : Scalar) (alpha_scalar : Scalar) : Option crypto_signature_t :=
  if ¬scalar_valid secret_key then none
  else
    let public_key : Pt := secret_key * G
    match prepare_signature sigHash message_digest public_key alpha_scalar with
    | none => none
    | some signature => complete_signature secret_key signature

/-!
## The Fiat-Shamir transcript (`scalar_transcript_t`)

`src/include/helpers/scalar_transcript_t.h`.  The state is a single scalar;
`update(x)` replaces it by `sha3(serialize(state) ‖ serialize(x)) mod l` and
`challenge()` is `return state;`.  The SHA3-and-serialize step enters the
embedding as the parameter `hashFn state input` over serialized inputs
(`List Nat`).  The C++ method mutates `this`; the embedding passes the state
explicitly, so `challenge` returns the read value together with the
(unchanged) transcript.
-/

/-- `scalar_transcript_t`: the single-scalar transcript state. -/
structure scalar_transcript_t where
  state : Scalar
deriving DecidableEq

/-- `scalar_transcript_t::update` (scalar_transcript_t.h:104-113). -/
def transcript_update (hashFn : Scalar → List Nat → Scalar)
    (t : scalar_transcript_t) (input : List Nat) : scalar_transcript_t :=
  ⟨hashFn t.state input⟩

/-- `scalar_transcript_t::challenge` (scalar_transcript_t.h:74-77): returns
the current state; the transcript after the call is returned unchanged. -/
def transcript_challenge (t : scalar_transcript_t) : Scalar × scalar_transcript_t :=
  (t.state, t)

/-- A sequence of `update` calls in order. -/
def transcript_updates (hashFn : Scalar → List Nat → Scalar)
    (t : scalar_transcript_t) (inputs : List (List Nat)) : scalar_transcript_t :=
  inputs.foldl (transcript_update hashFn) t

/-!
## Scalar `pow_sum` (`crypto_scalar_t::pow_sum`)

`src/src/types/crypto_scalar_t.cpp:573-606`.  The C++ rejects a `count`
failing the bit test `(count & (count - 1)) == 0` with a runtime error,
returns `0` for `count = 0` and `1` for `count = 1`, and otherwise runs the
doubling loop `base *= base; result += result * base; count /= 2` starting
from `result = 1 + a`, `base = a`.  Note that `count = 0` passes the bit
test (in C++ `0 & SIZE_MAX == 0`; in `Nat`, `0 - 1 = 0`).
-/

/-- The `while (count > 2)` loop of `pow_sum`. -/
def pow_sum_loop (base result : Scalar) (count : Nat) : Scalar :=
  if 2 < count then
    pow_sum_loop (base * base) (result + result * (base * base)) (count / 2)
  else result
termination_by count
decreasing_by exact Nat.div_lt_self (by omega) (by omega)

/-- `crypto_scalar_t::pow_sum` (crypto_scalar_t.cpp:573-606); `none` is the
thrown runtime error. -/
def pow_sum (a : Scalar) (count : Nat) : Option Scalar :=
  if ¬(count &&& (count - 1) = 0) then none
  else if count = 0 then some 0
  else if count = 1 then some 1
  else some (pow_sum_loop a (1 + a) count)

/-!
## RingCT amount masking (`Crypto::RingCT::toggle_masked_amount`)

`src/src/proofs/ringct.cpp:124-144`.  The function requires non-zero mask
and amount, truncates the amount to its low 8 bytes
(`crypto_scalar_t(amount.to_uint64_t())`, i.e. `val % 2^64` of the canonical
little-endian representation), and XORs those 8 bytes with the mask's low 8
bytes.
-/

/-- `crypto_scalar_t::to_uint64_t()`: the low 8 little-endian bytes of the
canonical representation. -/
def scalar_to_uint64 (s : Scalar) : Nat := s.val % 2 ^ 64

/-- `Crypto::RingCT::toggle_masked_amount` (ringct.cpp:124-144): the
byte-wise XOR of the 8 low bytes is the XOR of the two low-64-bit values;
`none` is the thrown invalid-argument error of `SCALAR_NZ_OR_THROW`. -/
def toggle_masked_amount (amount_mask amount : Scalar) : Option Scalar :=
  if amount_mask = 0 then none
  else if amount = 0 then none
  else some (((scalar_to_uint64 amount ^^^ scalar_to_uint64 amount_mask : Nat)) : Scalar)

/-!
## RingCT commitments (`Crypto::RingCT`)

`src/src/proofs/ringct.cpp`.  `generate_pedersen_commitment(bf, v)` is
`INV_EIGHT · (v·H + bf·G)`; the secondary generator `H` is an external
hash-derived constant of full order, embedded as `η·G` for a parameter `η`
(a unit, since `H` generates the prime-order subgroup).
`crypto_point_vector_t::sum()` folds `+` from the identity, i.e.
`List.sum`.
-/

/-- `Crypto::RingCT::generate_pedersen_commitment` (ringct.cpp:72-79),
with `H = η·G`. -/
def generate_pedersen_commitment (η : Scalar) (blinding_factor : Scalar) (amount : Nat) :
    Pt :=
  INV_EIGHT * ((amount : Scalar) * (η * G) + blinding_factor * G)

/-- `pseudo_blinding_factors.back() += delta` (ringct.cpp:115). -/
def adjust_last (delta : Scalar) : List Scalar → List Scalar
  | [] => []
  | [x] => [x + delta]
  | x :: y :: rest => x :: adjust_last delta (y :: rest)

/-- `Crypto::RingCT::generate_pseudo_commitments` (ringct.cpp:81-122).
`rands` is the random draw `crypto_scalar_t::random(input_amounts.size())`;
`none` is the thrown invalid-argument error for a zero output blinding
factor.  The C++ fills commitments for indices `0..n-2` from the original
blinding factors, adjusts the last blinding factor by
`sum(outputs) - sum(pseudo)`, and commits the last index with the adjusted
factor — i.e. it commits `input_amounts` pointwise against the adjusted
blinding-factor list. -/
def generate_pseudo_commitments (η : Scalar) (rands : List Scalar)
    (input_amounts : List Nat) (output_blinding_factors : List Scalar) :
    Option (List Scalar × List Pt) :=
  if output_blinding_factors.any (fun s => decide (s = 0)) then none
  else
    let sum_of_outputs := output_blinding_factors.sum
    let sum_of_pseudo_outputs := rands.sum
    let pseudo_blinding_factors := adjust_last (sum_of_outputs - sum_of_pseudo_outputs) rands
    some (pseudo_blinding_factors,
      List.zipWith (generate_pedersen_commitment η) pseudo_blinding_factors input_amounts)

/-- `Crypto::RingCT::check_commitments_parity` (ringct.cpp:33-52): sum of
pseudo commitments versus sum of output commitments plus the fee commitment
`generate_pedersen_commitment(ZERO, fee)`. -/
def check_commitments_parity (η : Scalar) (pseudo_commitments output_commitments : List Pt)
    (transaction_fee : Nat) : Bool :=
  decide (pseudo_commitments.sum =
    output_commitments.sum + generate_pedersen_commitment η 0 transaction_fee)

/-!
## Mnemonic encoding (`Crypto::Mnemonics::encode`)

`src/src/encoding/mnemonics.cpp:186-224` and
`src/src/types/crypto_entropy_t.cpp:155-166`.  The codec shipped under
`src/` is the CryptoNote-style one: every 4 input bytes are read as a
little-endian `uint32` and emit three word indices, and one checksum word is
appended at the end.  `calculate_checksum_index` SHA3-hashes the
concatenation of the UTF-8-prefix-trimmed words; SHA3 and the word lists
are external, so the hash-of-trimmed-concatenation enters as the parameter
`hashVal` and the selected word list as the parameter `wordList`.
-/

/-- The `reader.uint32()` loop of `encode`: 4-byte little-endian groups
(`unread_bytes() > 0` with fewer than 4 bytes left cannot happen on the
guarded multiple-of-4 inputs; trailing fragments read nothing). -/
def bytes_to_uint32_list : List Nat → List Nat
  | [] => []
  | [_] => []
  | [_, _] => []
  | [_, _, _] => []
  | b0 :: b1 :: b2 :: b3 :: rest =>
    (b0 + 256 * b1 + 65536 * b2 + 16777216 * b3) :: bytes_to_uint32_list rest

/-- `Crypto::Mnemonics::calculate_checksum_index` (mnemonics.cpp:98-114):
SHA3 of the trimmed concatenation, mod the word-list size. -/
def calculate_checksum_index (hashVal : List String → Nat) (words : List String)
    (word_list_size : Nat) : Nat :=
  hashVal words % word_list_size

/-- `Crypto::Mnemonics::encode` (mnemonics.cpp:186-224); `none` is the
thrown invalid-argument error for an input size not a multiple of 4. -/
def mnemonics_encode (hashVal : List String → Nat) (wordList : List String)
    (input : List Nat) : Option (List String) :=
  if input.length % 4 ≠ 0 then none
  else
    let n := wordList.length
    let data_words := (bytes_to_uint32_list input).flatMap fun x =>
      [wordList.getD (x % n) "",
       wordList.getD ((x / n + x % n) % n) "",
       wordList.getD ((x / n / n + (x / n + x % n) % n) % n) ""]
    some (data_words ++ [wordList.getD (calculate_checksum_index hashVal data_words n) ""])

/-- `crypto_entropy_t::is_128_bit()` (crypto_entropy_t.cpp:179-182): the
last 16 of the 32 entropy bytes are zero. -/
def entropy_is_128_bit (bytes : List Nat) : Bool :=
  (bytes.drop 16).all fun b => b == 0

/-- `crypto_entropy_t::to_mnemonic_words` (crypto_entropy_t.cpp:155-166):
resize to 16 bytes when the entropy is 128-bit, then encode. -/
def to_mnemonic_words (hashVal : List String → Nat) (wordList : List String)
    (bytes : List Nat) : Option (List String) :=
  mnemonics_encode hashVal wordList
    (if entropy_is_128_bit bytes then bytes.take 16 else bytes)

/-!
## Triptych structural guards (`Crypto::RingSignature::Triptych`)

`src/src/signatures/ring_signature_triptych.cpp:80-120` with the helpers
`dedupe_and_sort_keys` (dedupe_and_sort_keys.h), `pow2_round` and
`calculate_base2_exponent` (crypto_common.cpp).  `check_ring_signature`
returns `false` from a cascade of guards before doing any arithmetic; the
body after the guards (subgroup check of the key image, `check_construction`
and the transcript-driven verification equations) consumes external hashes
and enters the embedding as the parameter `rest`, the value that remainder
would produce.  Keys (32-byte strings compared by `memcmp`) are embedded as
their byte values, `Nat`.
-/

/-- Ordered insertion, the building block of the sort below. -/
def sorted_insert {α : Type} (le : α → α → Bool) (x : α) : List α → List α
  | [] => [x]
  | y :: ys => if le x y then x :: y :: ys else y :: sorted_insert le x ys

/-- Insertion sort by the comparator `le`. -/
def insertion_sort {α : Type} (le : α → α → Bool) (keys : List α) : List α :=
  keys.foldr (sorted_insert le) []

/-- `dedupe_and_sort_keys` (dedupe_and_sort_keys.h:41-50): a `std::set`
built with a byte-wise descending comparator, i.e. the distinct keys in
descending order; `le` is the comparator.  The callers in these claims use
only the size, which the sort leaves unchanged. -/
def dedupe_and_sort_keys {α : Type} [DecidableEq α] (le : α → α → Bool)
    (keys : List α) : List α :=
  insertion_sort le keys.dedup

/-- `Crypto::pow2_round` (crypto_common.cpp:307-324): a value passing the
`value && !(value & (value - 1))` test is returned unchanged; otherwise the
loop counts the bit length and returns `1 << count`, i.e. `2 ^ value.size`
(`pow2_round 0 = 1`). -/
def pow2_round (value : Nat) : Nat :=
  if value ≠ 0 ∧ value &&& (value - 1) = 0 then value
  else 2 ^ value.size

/-- `Crypto::calculate_base2_exponent` (crypto_common.cpp:141-161): reject a
value `pow2_round` changes, then scan exponents `0 ≤ e < 63` for
`1 << e == value` (the shift embedded as `2 ^ e`). -/
def calculate_base2_exponent (target_value : Nat) : Bool × Nat :=
  if pow2_round target_value ≠ target_value then (false, 0)
  else
    match (List.range 63).find? (fun e => 2 ^ e == target_value) with
    | some e => (true, e)
    | none => (false, 0)

/-- The guard cascade of `Triptych::check_ring_signature`
(ring_signature_triptych.cpp:80-120): duplicate keys, ring size not a power
of two or with exponent `m < 2`, commitment-list length mismatch — each
returns `false` before the remainder `rest` of the verification runs. -/
def triptych_check_ring_signature (rest : Bool)
    (public_keys commitments : List Nat) : Bool :=
  if (dedupe_and_sort_keys (fun a b => decide (b ≤ a)) public_keys).length ≠
      public_keys.length then false
  else if (calculate_base2_exponent public_keys.length).1 = false ∨
      (calculate_base2_exponent public_keys.length).2 < 2 then false
  else if public_keys.length ≠ commitments.length then false
  else rest

/-!
## Entropy timestamp (`crypto_entropy_t::timestamp`)

`src/src/types/crypto_entropy_t.cpp:129-146` with the bounds of
`src/include/crypto_config.h`.  The entropy serializes to its 32 bytes; a
varint is decoded from the leading bytes.
-/

/-- `CRYPTO_MINIMUM_SEED_TIMESTAMP` (crypto_config.h:34-36). -/
def CRYPTO_MINIMUM_SEED_TIMESTAMP : Nat := 1640995200

/-- `CRYPTO_MAXIMUM_SEED_TIMESTAMP` (crypto_config.h:38-40). -/
def CRYPTO_MAXIMUM_SEED_TIMESTAMP : Nat := 10413792000

/-- Modelled from the spec: the serialization library's
`deserializer_t::varint<uint64_t>()` is an external collaborator (not under
src/); the spec describes "a variable-length integer written in the leading
bytes".  Modelled as the standard little-endian base-128 varint with
continuation bit, failing (`none` = thrown exception) when the bytes run out
or the value exceeds 64 bits. -/
def varint_decode_go : List Nat → Nat → Nat → Option Nat
  | [], _, _ => none
  | b :: rest, shift, acc =>
    if 64 ≤ shift then none
    else if b < 128 then some (acc + b * 2 ^ shift)
    else varint_decode_go rest (shift + 7) (acc + (b - 128) * 2 ^ shift)

/-- Modelled from the spec: varint decoding of a byte string. -/
def varint_decode (bytes : List Nat) : Option Nat := varint_decode_go bytes 0 0

/-- `crypto_entropy_t::timestamp()` (crypto_entropy_t.cpp:129-146): decode a
varint from the serialized bytes, return it when it lies in
`[CRYPTO_MINIMUM_SEED_TIMESTAMP, CRYPTO_MAXIMUM_SEED_TIMESTAMP]`, and return
`0` on an out-of-range value or a decoding exception. -/
def entropy_timestamp (bytes : List Nat) : Nat :=
  match varint_decode bytes with
  | none => 0
  | some ts =>
    if CRYPTO_MINIMUM_SEED_TIMESTAMP ≤ ts ∧ ts ≤ CRYPTO_MAXIMUM_SEED_TIMESTAMP then ts
    else 0

/-!
## CLSAG ring signatures (`Crypto::RingSignature::CLSAG`)

`src/src/signatures/ring_signature_clsag.cpp:203-246` (complete) and
`348-603` (prepare).  The Fiat-Shamir pieces are external SHA3 transcripts
over public data and enter the embedding as the `clsag_hashes` parameter:
`muP`/`muC` are the challenges of the `CLSAG_DOMAIN_0`/`CLSAG_DOMAIN_2`
transcripts, `round` is the challenge of the preloaded `CLSAG_DOMAIN_1`
transcript updated with a round's `(L, R)`, and `Hp` is the hash-to-point
`crypto_hash_t::sha3(P).point()`.  `alpha` is the nonce the `try_again`
loop drew and `s_rand` the random scalar vector
`crypto_scalar_t::random(ring_size)`; the loop's retry conditions are
`none`-guards.  The point guards `pseudo_commitment.valid()` and
`key_image.check_subgroup()` both end in `!empty()`, which rejects exactly
the identity point, `0` in the discrete-log model (`point_valid` and
`point_check_subgroup` above).
-/

/-- The external hash functions CLSAG consumes (for one fixed instance of
the public inputs). -/
structure clsag_hashes where
  muP : Scalar
  muC : Scalar
  round : Pt → Pt → Scalar
  Hp : Pt → Pt

/-- `crypto_clsag_signature_t`: scalars `s`, seed challenge `h_0`,
commitment image `D`, pseudo commitment `C'`. -/
structure crypto_clsag_signature_t where
  scalars : List Scalar
  challenge : Scalar
  commitment_image : Pt
  pseudo_commitment : Pt
deriving DecidableEq

/-- The `use_commitments` flag of `prepare_ring_signature`
(ring_signature_clsag.cpp:370-372): the input blinding factor and pseudo
blinding factor are valid non-zero scalars, the commitment list matches the
key list, and the pseudo commitment is a valid (non-identity) point. -/
def clsag_use_commitments (input_blinding_factor : Scalar)
    (public_commitments public_keys : List Pt) (pseudo_blinding_factor : Scalar)
    (pseudo_commitment : Pt) : Bool :=
  scalar_valid input_blinding_factor &&
    decide (public_commitments.length = public_keys.length) &&
    scalar_valid pseudo_blinding_factor &&
    point_valid pseudo_commitment

/-- The challenge loop of `prepare_ring_signature`
(ring_signature_clsag.cpp:533-593) over the index cycle `idxs`, carrying
the challenge array `h`:
`L = h[idx]·μP·P[idx] + s[idx]·G (+ h[idx]·μC·8·(C[idx]−C'))`,
`R = s[idx]·Hp(P[idx]) + h[idx]·μP·I (+ h[idx]·μC·D)`,
`h[(idx+1) % n] = round(L, R)`, failing on a zero challenge. -/
def clsag_rounds (hs : clsag_hashes) (useC : Bool) (muC : Scalar) (key_image : Pt)
    (public_keys public_commitments : List Pt) (pseudo_commitment commitment_image : Pt)
    (s : List Scalar) (n : Nat) : List Scalar → List Nat → Option (List Scalar)
  | h, [] => some h
  | h, idx :: rest =>
    if hs.round
        ((if useC then
          h.getD idx 0 * hs.muP * public_keys.getD idx 0 + s.getD idx 0 * G +
            (h.getD idx 0 * muC) *
              (EIGHT * (public_commitments.getD idx 0 - pseudo_commitment))
          else h.getD idx 0 * hs.muP * public_keys.getD idx 0 + s.getD idx 0 * G))
        ((if useC then
          s.getD idx 0 * hs.Hp (public_keys.getD idx 0) + h.getD idx 0 * hs.muP * key_image +
            (h.getD idx 0 * muC) * commitment_image
          else s.getD idx 0 * hs.Hp (public_keys.getD idx 0) +
            h.getD idx 0 * hs.muP * key_image)) = 0 then none
    else clsag_rounds hs useC muC key_image public_keys public_commitments
      pseudo_commitment commitment_image s n
      (h.set ((idx + 1) % n)
        (hs.round
          ((if useC then
            h.getD idx 0 * hs.muP * public_keys.getD idx 0 + s.getD idx 0 * G +
              (h.getD idx 0 * muC) *
                (EIGHT * (public_commitments.getD idx 0 - pseudo_commitment))
            else h.getD idx 0 * hs.muP * public_keys.getD idx 0 + s.getD idx 0 * G))
          ((if useC then
            s.getD idx 0 * hs.Hp (public_keys.getD idx 0) +
              h.getD idx 0 * hs.muP * key_image + (h.getD idx 0 * muC) * commitment_image
            else s.getD idx 0 * hs.Hp (public_keys.getD idx 0) +
              h.getD idx 0 * hs.muP * key_image))))
      rest

/-- The body of `prepare_ring_signature` past its guard block
(ring_signature_clsag.cpp:440-602): run the challenge loop, then place
`alpha` (minus the `h_π·z·μ_C` share when commitments are in use) at the
real index and assemble the signature. -/
def clsag_prepare_body (hs : clsag_hashes) (alpha : Scalar)
    (s_rand : List Scalar) (key_image : Pt) (public_keys : List Pt)
    (real_output_index : Nat) (input_blinding_factor : Scalar)
    (public_commitments : List Pt) (pseudo_blinding_factor : Scalar)
    (pseudo_commitment : Pt) :
    Option (crypto_clsag_signature_t × List Scalar × Scalar) :=
  match clsag_rounds hs
      (clsag_use_commitments input_blinding_factor public_commitments public_keys
        pseudo_blinding_factor pseudo_commitment)
      (if clsag_use_commitments input_blinding_factor public_commitments public_keys
        pseudo_blinding_factor pseudo_commitment then hs.muC else 0)
      key_image public_keys public_commitments pseudo_commitment
      (if clsag_use_commitments input_blinding_factor public_commitments public_keys
          pseudo_blinding_factor pseudo_commitment then
        (input_blinding_factor - pseudo_blinding_factor) *
          hs.Hp (public_keys.getD real_output_index 0)
      else 0)
      s_rand public_keys.length
      ((List.replicate public_keys.length 0).set
        ((real_output_index + 1) % public_keys.length)
        (hs.round (alpha * G) (alpha * hs.Hp (public_keys.getD real_output_index 0))))
      ((List.range (public_keys.length - 1)).map fun j =>
        (real_output_index + 1 + j) % public_keys.length) with
    | none => none
    | some h =>
      some (⟨(if clsag_use_commitments input_blinding_factor public_commitments public_keys
            pseudo_blinding_factor pseudo_commitment then
          (s_rand.set real_output_index alpha).set real_output_index
            ((s_rand.set real_output_index alpha).getD real_output_index 0 -
              h.getD real_output_index 0 *
                (input_blinding_factor - pseudo_blinding_factor) * hs.muC)
        else s_rand.set real_output_index alpha),
        h.getD 0 0,
        (if clsag_use_commitments input_blinding_factor public_commitments public_keys
            pseudo_blinding_factor pseudo_commitment then
          (input_blinding_factor - pseudo_blinding_factor) *
            hs.Hp (public_keys.getD real_output_index 0)
        else 0),
        pseudo_commitment⟩, h, hs.muP)

/-- `CLSAG::prepare_ring_signature` (ring_signature_clsag.cpp:348-603):
the guard block, then the body above.  `none` covers the `{false, ...}`
returns, the thrown zero-`z` error of `generate_key_image`, and the retry
conditions of the `try_again` loop (which re-draws `alpha`). -/
def clsag_prepare_ring_signature (hs : clsag_hashes) (alpha : Scalar)
    (s_rand : List Scalar) (key_image : Pt) (public_keys : List Pt)
    (real_output_index : Nat) (input_blinding_factor : Scalar)
    (public_commitments : List Pt) (pseudo_blinding_factor : Scalar)
    (pseudo_commitment : Pt) :
    Option (crypto_clsag_signature_t × List Scalar × Scalar) :=
  if (dedupe_and_sort_keys (fun a b : Pt => decide (b.val ≤ a.val)) public_keys).length ≠
      public_keys.length then none
  else if real_output_index ≥ public_keys.length then none
  else if point_check_subgroup key_image = false then none
  else if alpha = 0 then none
  else if clsag_use_commitments input_blinding_factor public_commitments public_keys
        pseudo_blinding_factor pseudo_commitment &&
      decide (EIGHT * (public_commitments.getD real_output_index 0 - pseudo_commitment) ≠
        (input_blinding_factor - pseudo_blinding_factor) * G) then none
  else if clsag_use_commitments input_blinding_factor public_commitments public_keys
        pseudo_blinding_factor pseudo_commitment &&
      decide (input_blinding_factor - pseudo_blinding_factor = 0) then none
  else if hs.muP = 0 then none
  else if clsag_use_commitments input_blinding_factor public_commitments public_keys
        pseudo_blinding_factor pseudo_commitment && decide (hs.muC = 0) then none
  else if hs.round (alpha * G)
      (alpha * hs.Hp (public_keys.getD real_output_index 0)) = 0 then none
  else clsag_prepare_body hs alpha s_rand key_image public_keys real_output_index
    input_blinding_factor public_commitments pseudo_blinding_factor pseudo_commitment

/-- `CLSAG::complete_ring_signature` (ring_signature_clsag.cpp:203-246):
structural and validity guards, then
`s[π] -= h[π] · (μP · x)`. -/
def clsag_complete_ring_signature (signing_scalar : Scalar) (real_output_index : Nat)
    (signature : crypto_clsag_signature_t) (h : List Scalar) (mu_P : Scalar) :
    Option crypto_clsag_signature_t :=
  if signature.scalars = [] then none
  else if real_output_index ≥ signature.scalars.length then none
  else if h.length ≠ signature.scalars.length then none
  else if ¬(scalar_valid signing_scalar ∧ scalar_valid signature.challenge ∧
      scalar_valid mu_P) then none
  else if signature.scalars.any (fun s => decide (s = 0)) then none
  else if h.any (fun s => decide (s = 0)) then none
  else some { signature with
    scalars := signature.scalars.set real_output_index
      (signature.scalars.getD real_output_index 0 -
        h.getD real_output_index 0 * (mu_P * signing_scalar)) }

/-!
## Theorems

The claims C1..C10, with their helper lemmas and witnesses.
-/

theorem eight_mul_inv_eight : EIGHT * INV_EIGHT = 1 := by decide

theorem isUnit_inv_eight : IsUnit INV_EIGHT :=
  isUnit_of_mul_eq_one _ EIGHT (by rw [mul_comm]; exact eight_mul_inv_eight)

/-- C1: for every non-zero scalar `x` and digest `m`, `generate_signature`
followed by `check_signature` against `x·G` accepts, and `check_signature`
accepts an arbitrary signature exactly when its validity guards pass and the
rebuilt transcript challenge over `(m, P, L·P + R·G)` equals `L`.  The
transcript hash is a parameter; `alpha` is the nonce drawn by the prepare
retry loop, and the hypotheses are that loop's exit conditions plus the
non-degeneracy `α ≠ L·x` of the completed response (a zero response scalar
is rejected by `check_signature`'s validity guard). -/
theorem signature_generate_then_check (sigHash : List Nat → Pt → Pt → Scalar)
    (m : List Nat) (x alpha : Scalar) (hx : x ≠ 0) (halpha : alpha ≠ 0)
    (hL : sigHash m (x * G) (alpha * G) ≠ 0)
    (hR : alpha - sigHash m (x * G) (alpha * G) * x ≠ 0) :
    (∃ sig, generate_signature sigHash m x alpha = some sig ∧
        check_signature sigHash m (x * G) sig = true) ∧
    ∀ sig : crypto_signature_t,
      check_signature sigHash m (x * G) sig = true ↔
        sig.L ≠ 0 ∧ sig.R ≠ 0 ∧
          sigHash m (x * G) (sig.L * (x * G) + sig.R * G) = sig.L := by
  have hcheck : ∀ (P : Pt) (sig : crypto_signature_t),
      check_signature sigHash m P sig = true ↔
        sig.L ≠ 0 ∧ sig.R ≠ 0 ∧ sigHash m P (sig.L * P + sig.R * G) = sig.L := by
    intro P sig
    by_cases hl : sig.L = 0
    · simp [check_signature, scalar_valid, hl]
    by_cases hr : sig.R = 0
    · simp [check_signature, scalar_valid, hl, hr]
    by_cases hc : sigHash m P (sig.L * P + sig.R * G) = sig.L
    · have hcne : sigHash m P (sig.L * P + sig.R * G) ≠ 0 := by rw [hc]; exact hl
      simp [check_signature, scalar_valid, scalar_is_nonzero, sc_isnonzero, hl, hr, hc,
        hcne, sub_eq_zero]
    · by_cases hcz : sigHash m P (sig.L * P + sig.R * G) = 0
      · simp [check_signature, scalar_valid, hl, hr, hcz, hc]
        exact fun h => hl h.symm
      · simp [check_signature, scalar_valid, scalar_is_nonzero, sc_isnonzero, hl, hr,
          hcz, hc, sub_eq_zero]
  constructor
  · refine ⟨⟨sigHash m (x * G) (alpha * G),
      alpha - sigHash m (x * G) (alpha * G) * x⟩, ?_, ?_⟩
    · simp [generate_signature, prepare_signature, complete_signature, scalar_valid,
        hx, halpha, hL]
    · rw [hcheck]
      refine ⟨hL, hR, ?_⟩
      have harg : sigHash m (x * G) (alpha * G) * (x * G) +
          (alpha - sigHash m (x * G) (alpha * G) * x) * G = alpha * G := by ring
      rw [harg]
  · exact hcheck (x * G)

/-- Witness for C1 at `sigHash := fun _ _ p => p + 1`, `m = []`, `x = 1`,
`alpha = 1`. -/
theorem signature_generate_then_check_witness :
    ∃ sig, generate_signature (fun _ _ p => p + 1) [] 1 1 = some sig ∧
      check_signature (fun _ _ p => p + 1) [] ((1 : Scalar) * G) sig = true :=
  (signature_generate_then_check (fun _ _ p => p + 1) [] 1 1 (by decide) (by decide)
    (by decide) (by decide)).1

/-- C7: `crypto_scalar_t::is_nonzero()` is true exactly on the zero scalar
(the C++ returns `sc_isnonzero(bytes) == 0`, the opposite of its name), and
consequently the final test of `check_signature` accepts — once the validity
guards hold — precisely when the recomputed challenge equals `L`. -/
theorem is_nonzero_is_inverted :
    (∀ s : Scalar, scalar_is_nonzero s = true ↔ s = 0) ∧
    ∀ (sigHash : List Nat → Pt → Pt → Scalar) (m : List Nat) (P : Pt)
      (sig : crypto_signature_t), sig.L ≠ 0 → sig.R ≠ 0 →
      (check_signature sigHash m P sig = true ↔
        sigHash m P (sig.L * P + sig.R * G) = sig.L) := by
  constructor
  · intro s
    by_cases hs : s = 0 <;> simp [scalar_is_nonzero, sc_isnonzero, hs]
  · intro sigHash m P sig hl hr
    by_cases hc : sigHash m P (sig.L * P + sig.R * G) = sig.L
    · have hcne : sigHash m P (sig.L * P + sig.R * G) ≠ 0 := by rw [hc]; exact hl
      simp [check_signature, scalar_valid, scalar_is_nonzero, sc_isnonzero, hl, hr, hc,
        hcne, sub_eq_zero]
    · by_cases hcz : sigHash m P (sig.L * P + sig.R * G) = 0
      · simp [check_signature, scalar_valid, hl, hr, hcz, hc]
        exact fun h => hl h.symm
      · simp [check_signature, scalar_valid, scalar_is_nonzero, sc_isnonzero, hl, hr,
          hcz, hc, sub_eq_zero]

/-- Witness for C7 at `s = 0` and a concrete accepting verification. -/
theorem is_nonzero_is_inverted_witness :
    scalar_is_nonzero (0 : Scalar) = true ∧
      (check_signature (fun _ _ _ => 1) [] 1 ⟨1, 1⟩ = true ↔ (1 : Scalar) = 1) :=
  ⟨(is_nonzero_is_inverted.1 0).mpr rfl,
    is_nonzero_is_inverted.2 (fun _ _ _ => 1) [] 1 ⟨1, 1⟩ (by decide) (by decide)⟩

/-- C4: `challenge()` reads the state without modifying the transcript, so
any number of `challenge()` calls between updates return the same scalar,
and two transcripts with equal states receiving identical updates in
identical order have equal challenges after every prefix of the update
sequence. -/
theorem transcript_challenge_pure (hashFn : Scalar → List Nat → Scalar)
    (t : scalar_transcript_t) :
    (transcript_challenge t).2 = t ∧
    (transcript_challenge (transcript_challenge t).2).1 = (transcript_challenge t).1 ∧
    ∀ t2 : scalar_transcript_t, t.state = t2.state →
      ∀ (inputs : List (List Nat)) (k : Nat),
        (transcript_challenge (transcript_updates hashFn t (inputs.take k))).1 =
          (transcript_challenge (transcript_updates hashFn t2 (inputs.take k))).1 := by
  refine ⟨rfl, rfl, ?_⟩
  intro t2 hstate inputs k
  have ht : t = t2 := by
    cases t
    cases t2
    simpa using hstate
  rw [ht]

/-- Witness for C4 at a concrete hash, state and update sequence. -/
theorem transcript_challenge_pure_witness :
    (transcript_challenge ⟨3⟩).2 = (⟨3⟩ : scalar_transcript_t) ∧
    (transcript_challenge (transcript_updates (fun s _ => s + 1) ⟨3⟩
        ([[1], [2], [3]].take 2))).1 =
      (transcript_challenge (transcript_updates (fun s _ => s + 1)
        (⟨3⟩ : scalar_transcript_t) ([[1], [2], [3]].take 2))).1 :=
  ⟨(transcript_challenge_pure (fun s _ => s + 1) ⟨3⟩).1,
    (transcript_challenge_pure (fun s _ => s + 1) ⟨3⟩).2.2 ⟨3⟩ rfl [[1], [2], [3]] 2⟩

/-- The bit test `(count & (count - 1)) == 0` used by `pow_sum` (and, via
`pow2_round`, by `calculate_base2_exponent`) holds exactly on zero and the
powers of two. -/
theorem land_pred_eq_zero_iff (c : Nat) :
    c &&& (c - 1) = 0 ↔ c = 0 ∨ ∃ k, c = 2 ^ k := by
  constructor
  · intro h
    by_cases hc : c = 0
    · exact Or.inl hc
    right
    obtain ⟨i, hbit, hmax⟩ := Nat.exists_most_significant_bit hc
    refine ⟨i, Nat.eq_of_testBit_eq fun j => ?_⟩
    rcases lt_trichotomy j i with hji | rfl | hij
    · rw [Nat.testBit_two_pow_of_ne (by omega : i ≠ j)]
      by_contra hbj
      rw [Bool.not_eq_false] at hbj
      have hlt : c < 2 ^ (i + 1) := by
        by_contra hge
        obtain ⟨t, htge, htbit⟩ :=
          Nat.ge_two_pow_implies_high_bit_true (Nat.le_of_not_lt hge)
        rw [hmax t (by omega)] at htbit
        exact Bool.false_ne_true htbit
      have hge : 2 ^ i ≤ c := Nat.testBit_implies_ge hbit
      have hne : c ≠ 2 ^ i := by
        intro hceq
        rw [hceq, Nat.testBit_two_pow_of_ne (by omega : i ≠ j)] at hbj
        exact Bool.false_ne_true hbj
      have hdiv : (c - 1) / 2 ^ i = 1 := by
        refine Nat.div_eq_of_lt_le (by omega) ?_
        have h2 : (1 + 1) * 2 ^ i = 2 ^ (i + 1) := by rw [Nat.pow_succ]; ring
        omega
      have hpred : Nat.testBit (c - 1) i = true := by
        rw [Nat.testBit_to_div_mod, hdiv]
        rfl
      have hland : Nat.testBit (c &&& (c - 1)) i = true := by
        rw [Nat.testBit_land, hbit, hpred]
        rfl
      rw [h, Nat.zero_testBit] at hland
      exact Bool.false_ne_true hland
    · rw [hbit, Nat.testBit_two_pow_self]
    · rw [hmax j hij, Nat.testBit_two_pow_of_ne (by omega : i ≠ j)]
  · rintro (rfl | ⟨k, rfl⟩)
    · rfl
    · refine Nat.eq_of_testBit_eq fun j => ?_
      rw [Nat.testBit_land, Nat.testBit_two_pow, Nat.testBit_two_pow_sub_one,
        Nat.zero_testBit]
      by_cases hkj : k = j
      · subst hkj
        simp
      · simp [hkj]

/-- Loop invariant for `pow_sum_loop`: entering the loop with
`base = a^e`, `result = Σ_{i<2e} a^i` and `count = 2^k` returns
`Σ_{i < e·2^k} a^i`. -/
theorem pow_sum_loop_geom (a : Scalar) :
    ∀ k e : Nat, 1 ≤ k → 1 ≤ e →
      pow_sum_loop (a ^ e) (∑ i ∈ Finset.range (2 * e), a ^ i) (2 ^ k) =
        ∑ i ∈ Finset.range (e * 2 ^ k), a ^ i := by
  intro k
  induction k with
  | zero => omega
  | succ k ih =>
    intro e _ he
    by_cases hk : k = 0
    · subst hk
      rw [pow_sum_loop]
      norm_num [mul_comm]
    · have hk1 : 1 ≤ k := by omega
      have hcnt : 2 < 2 ^ (k + 1) := by
        calc 2 < 4 := by omega
        _ = 2 ^ 2 := by norm_num
        _ ≤ 2 ^ (k + 1) := Nat.pow_le_pow_right (by omega) (by omega)
      rw [pow_sum_loop, if_pos hcnt]
      have hbase : a ^ e * a ^ e = a ^ (2 * e) := by
        rw [← pow_add]
        ring_nf
      have hres : (∑ i ∈ Finset.range (2 * e), a ^ i) +
          (∑ i ∈ Finset.range (2 * e), a ^ i) * a ^ (2 * e) =
            ∑ i ∈ Finset.range (2 * (2 * e)), a ^ i := by
        rw [two_mul (2 * e), Finset.sum_range_add, Finset.sum_mul]
        congr 1
        refine Finset.sum_congr rfl fun i _ => ?_
        rw [← pow_add]
        congr 1
        omega
      have hdiv : 2 ^ (k + 1) / 2 = 2 ^ k := by
        rw [Nat.pow_succ, Nat.mul_div_cancel _ (by omega)]
      rw [hbase, hres, hdiv, ih (2 * e) hk1 (by omega)]
      congr 1
      rw [Nat.pow_succ]
      ring_nf

/-- C5 (amended): for `0 ≤ k ≤ 63`, `pow_sum(2^k)` is `Σ_{i=0}^{2^k-1} a^i`;
for every non-zero `count` that is not a power of two it fails with a
runtime error; but `pow_sum(0)` slips through the `(count & (count-1)) == 0`
test and returns `0` rather than failing. -/
theorem pow_sum_spec (a : Scalar) :
    (∀ k : Nat, k ≤ 63 →
        pow_sum a (2 ^ k) = some (∑ i ∈ Finset.range (2 ^ k), a ^ i)) ∧
    (∀ c : Nat, c ≠ 0 → (∀ j : Nat, c ≠ 2 ^ j) → pow_sum a c = none) ∧
    pow_sum a 0 = some 0 := by
  refine ⟨?_, ?_, rfl⟩
  · intro k _
    have htest : 2 ^ k &&& (2 ^ k - 1) = 0 :=
      (land_pred_eq_zero_iff (2 ^ k)).mpr (Or.inr ⟨k, rfl⟩)
    by_cases hk : k = 0
    · subst hk
      norm_num [pow_sum]
    · have h1 : (2 : Nat) ^ k ≠ 0 := by positivity
      have h2 : (2 : Nat) ^ k ≠ 1 := by
        have : (2 : Nat) ^ 1 ≤ 2 ^ k := Nat.pow_le_pow_right (by omega) (by omega)
        omega
      have hloop := pow_sum_loop_geom a k 1 (by omega) (by omega)
      rw [pow_one, one_mul, Nat.mul_one] at hloop
      rw [pow_sum, if_neg (not_not_intro htest), if_neg h1, if_neg h2,
        show (1 : Scalar) + a = ∑ i ∈ Finset.range 2, a ^ i from by
          rw [geom_sum_two]
          exact add_comm 1 a,
        hloop]
  · intro c hc0 hcpow
    have htest : ¬(c &&& (c - 1) = 0) := by
      intro h
      rcases (land_pred_eq_zero_iff c).mp h with h0 | ⟨k, hk⟩
      · exact hc0 h0
      · exact hcpow k hk
    rw [pow_sum, if_pos htest]

/-- Counterexample for C5 as stated: `count = 0` is not a power of two, yet
`pow_sum(0)` returns the zero scalar instead of failing. -/
theorem pow_sum_zero_counterexample :
    pow_sum (3 : Scalar) 0 = some 0 ∧
      (0 : Nat) ∉ Set.range (fun k : Nat => 2 ^ k) := by
  constructor
  · rfl
  · rintro ⟨k, hk⟩
    have hk2 : 2 ^ k = 0 := hk
    have : (0 : Nat) < 2 ^ k := Nat.two_pow_pos k
    omega

theorem two_pow_64_lt_ell : 2 ^ 64 < ell := by norm_num [ell]

/-- C9: masking is an involution on the low 64 bits: for a non-zero mask and
non-zero amount whose intermediate masked value is non-zero, toggling twice
returns the scalar of the amount's low 64 bits. -/
theorem toggle_masked_amount_involution (amount_mask amount : Scalar)
    (hm : amount_mask ≠ 0) (ha : amount ≠ 0) (t : Scalar)
    (ht : toggle_masked_amount amount_mask amount = some t) (htnz : t ≠ 0) :
    toggle_masked_amount amount_mask t = some ((scalar_to_uint64 amount : Nat) : Scalar) := by
  rw [toggle_masked_amount, if_neg hm, if_neg ha] at ht
  injection ht with ht
  subst ht
  rw [toggle_masked_amount, if_neg hm, if_neg htnz]
  have hxlt : scalar_to_uint64 amount ^^^ scalar_to_uint64 amount_mask < 2 ^ 64 :=
    Nat.xor_lt_two_pow (Nat.mod_lt _ (by omega)) (Nat.mod_lt _ (by omega))
  have htu : scalar_to_uint64
      (((scalar_to_uint64 amount ^^^ scalar_to_uint64 amount_mask : Nat)) : Scalar) =
        scalar_to_uint64 amount ^^^ scalar_to_uint64 amount_mask := by
    rw [scalar_to_uint64, ZMod.val_cast_of_lt (lt_trans hxlt two_pow_64_lt_ell)]
    exact Nat.mod_eq_of_lt hxlt
  rw [htu, Nat.xor_assoc, Nat.xor_self, Nat.xor_zero]

/-- Witness for C9 at `mask = 5`, `amount = 12` (intermediate value `9`):
unmasking the intermediate value returns the low 64 bits of the amount. -/
theorem toggle_masked_amount_involution_witness :
    toggle_masked_amount 5 (9 : Scalar) = some (((scalar_to_uint64 12 : Nat)) : Scalar) :=
  toggle_masked_amount_involution 5 12 (by decide) (by decide) 9 (by decide) (by decide)

theorem adjust_last_length (delta : Scalar) :
    ∀ l : List Scalar, (adjust_last delta l).length = l.length
  | [] => rfl
  | [_] => rfl
  | _ :: y :: rest => by
    rw [adjust_last, List.length_cons, List.length_cons,
      adjust_last_length delta (y :: rest), List.length_cons]

theorem adjust_last_sum (delta : Scalar) :
    ∀ l : List Scalar, l ≠ [] → (adjust_last delta l).sum = l.sum + delta
  | [], h => absurd rfl h
  | [x], _ => by rw [adjust_last]; simp
  | x :: y :: rest, _ => by
    rw [adjust_last, List.sum_cons, List.sum_cons,
      adjust_last_sum delta (y :: rest) (by simp)]
    ring

/-- Sum of a pointwise commitment list. -/
theorem sum_zipWith_commitment (η : Scalar) (bfs : List Scalar) :
    ∀ amounts : List Nat, bfs.length = amounts.length →
      (List.zipWith (generate_pedersen_commitment η) bfs amounts).sum =
        INV_EIGHT * ((amounts.sum : Scalar) * (η * G) + bfs.sum * G) := by
  induction bfs with
  | nil =>
    intro amounts h
    cases amounts with
    | nil => simp
    | cons a as => simp at h
  | cons b bfs ih =>
    intro amounts h
    cases amounts with
    | nil => simp at h
    | cons a as =>
      simp only [List.zipWith_cons_cons, List.sum_cons]
      rw [ih as (by simpa using h), generate_pedersen_commitment]
      push_cast
      ring

/-- Casting is injective below `2^64 < l`. -/
theorem natCast_inj_below_64 (a b : Nat) (ha : a < 2 ^ 64) (hb : b < 2 ^ 64) :
    ((a : Nat) : Scalar) = ((b : Nat) : Scalar) ↔ a = b := by
  constructor
  · intro h
    have hv := congrArg ZMod.val h
    rwa [ZMod.val_cast_of_lt (lt_trans ha two_pow_64_lt_ell),
      ZMod.val_cast_of_lt (lt_trans hb two_pow_64_lt_ell)] at hv
  · intro h
    rw [h]

/-- C3: with pseudo commitments from `generate_pseudo_commitments` and
output commitments `generate_pedersen_commitment(bf_j, out_j)`,
`check_commitments_parity` accepts exactly when the input amounts sum to the
output amounts plus the fee (sums below `2^64`). -/
theorem check_commitments_parity_iff (η : Scalar) (hη : IsUnit η)
    (input_amounts output_amounts : List Nat)
    (output_blinding_factors rands : List Scalar) (fee : Nat)
    (hin : input_amounts ≠ [])
    (hrlen : rands.length = input_amounts.length)
    (hobf : ∀ b ∈ output_blinding_factors, b ≠ 0)
    (holen : output_blinding_factors.length = output_amounts.length)
    (hinsum : input_amounts.sum < 2 ^ 64)
    (houtsum : output_amounts.sum + fee < 2 ^ 64) :
    ∃ pbfs pseudo,
      generate_pseudo_commitments η rands input_amounts output_blinding_factors =
        some (pbfs, pseudo) ∧
      (check_commitments_parity η pseudo
          (List.zipWith (generate_pedersen_commitment η) output_blinding_factors
            output_amounts) fee = true ↔
        input_amounts.sum = output_amounts.sum + fee) := by
  have hany : output_blinding_factors.any (fun s => decide (s = 0)) = false := by
    rw [List.any_eq_false]
    intro x hx
    simpa using hobf x hx
  have hrne : rands ≠ [] := by
    intro hr
    rw [hr] at hrlen
    exact hin (List.eq_nil_of_length_eq_zero hrlen.symm)
  simp only [generate_pseudo_commitments, hany, Bool.false_eq_true, if_false]
  refine ⟨_, _, rfl, ?_⟩
  rw [check_commitments_parity, decide_eq_true_iff]
  rw [sum_zipWith_commitment η _ input_amounts
    (by rw [adjust_last_length]; exact hrlen)]
  rw [sum_zipWith_commitment η _ output_amounts holen]
  rw [adjust_last_sum _ rands hrne]
  have hbf : rands.sum + (output_blinding_factors.sum - rands.sum) =
      output_blinding_factors.sum := by ring
  rw [hbf]
  rw [generate_pedersen_commitment]
  constructor
  · intro h
    have hcomb : INV_EIGHT * ((output_amounts.sum : Scalar) * (η * G) +
          output_blinding_factors.sum * G) +
        INV_EIGHT * ((fee : Scalar) * (η * G) + 0 * G) =
          INV_EIGHT * (((output_amounts.sum : Scalar) + (fee : Scalar)) * (η * G) +
            output_blinding_factors.sum * G) := by ring
    rw [hcomb] at h
    have h2 := (IsUnit.mul_right_inj isUnit_inv_eight).mp h
    have h3 := add_right_cancel h2
    rw [show (G : Pt) = 1 from rfl, mul_one] at h3
    have h4 := (IsUnit.mul_left_inj hη).mp h3
    have h5 : ((input_amounts.sum : Nat) : Scalar) =
        ((output_amounts.sum + fee : Nat) : Scalar) := by
      rw [Nat.cast_add]
      exact h4
    exact (natCast_inj_below_64 _ _ hinsum houtsum).mp h5
  · intro h
    rw [h, Nat.cast_add]
    ring

/-- Witness for C3: the spec scenario, amounts `{1000, 1000}`, one output of
`1900`, fee `100` (with `η = 1` for the generator `H` and a concrete random
draw). -/
theorem check_commitments_parity_iff_witness :
    ∃ pbfs pseudo,
      generate_pseudo_commitments 1 [1, 2] [1000, 1000] [5] = some (pbfs, pseudo) ∧
      (check_commitments_parity 1 pseudo
          (List.zipWith (generate_pedersen_commitment 1) [5] [1900]) 100 = true ↔
        [1000, 1000].sum = [1900].sum + 100) :=
  check_commitments_parity_iff 1 isUnit_one [1000, 1000] [1900] [5] [1, 2] 100
    (by decide) (by decide)
    (fun b hb => by rw [List.mem_singleton] at hb; subst hb; decide)
    (by decide) (by decide) (by decide)

theorem bytes_to_uint32_list_length :
    ∀ l : List Nat, (bytes_to_uint32_list l).length = l.length / 4
  | [] => by simp [bytes_to_uint32_list]
  | [_] => by simp [bytes_to_uint32_list]
  | [_, _] => by simp [bytes_to_uint32_list]
  | [_, _, _] => by simp [bytes_to_uint32_list]
  | b0 :: b1 :: b2 :: b3 :: rest => by
    show (bytes_to_uint32_list rest).length + 1 = (rest.length + 3 + 1) / 4
    rw [bytes_to_uint32_list_length rest]
    omega

theorem flatMap_three_length {α β : Type} (f g h : α → β) (xs : List α) :
    (xs.flatMap fun x => [f x, g x, h x]).length = 3 * xs.length := by
  induction xs with
  | nil => rfl
  | cons x xs ih =>
    rw [List.flatMap_cons, List.length_append, ih]
    simp
    omega

theorem getD_mem_of_lt {α : Type} :
    ∀ (l : List α) (i : Nat), i < l.length → ∀ d : α, l.getD i d ∈ l
  | [], i, h, _ => absurd h (by simp)
  | a :: t, 0, _, d => by rw [List.getD_cons_zero]; exact List.mem_cons_self a t
  | a :: t, i + 1, h, d => by
    rw [List.getD_cons_succ]
    exact List.mem_cons_of_mem a (getD_mem_of_lt t i (by simpa using h) d)

/-- C6 (amended): under the codec shipped in `src/`, a 16-byte (128-bit)
entropy encodes to exactly 13 words (12 data words plus one trailing
checksum word) and a 32-byte entropy to exactly 25 words (24 plus the
checksum word), each word drawn from the selected language's 2048-word
list. -/
theorem to_mnemonic_words_count (hashVal : List String → Nat) (wordList : List String)
    (bytes : List Nat) (hw : wordList.length = 2048) (hb : bytes.length = 32) :
    ∃ ws, to_mnemonic_words hashVal wordList bytes = some ws ∧
      (entropy_is_128_bit bytes = true → ws.length = 13) ∧
      (entropy_is_128_bit bytes = false → ws.length = 25) ∧
      ∀ w ∈ ws, w ∈ wordList := by
  have hn : 0 < wordList.length := by omega
  have hmem : ∀ (input : List Nat) (ws : List String),
      mnemonics_encode hashVal wordList input = some ws → ∀ w ∈ ws, w ∈ wordList := by
    intro input ws henc w hw2
    rw [mnemonics_encode] at henc
    by_cases hmod : input.length % 4 ≠ 0
    · rw [if_pos hmod] at henc
      exact absurd henc (by simp)
    · rw [if_neg hmod] at henc
      injection henc with henc
      subst henc
      rcases List.mem_append.mp hw2 with hdata | hcheck
      · obtain ⟨x, _, hx⟩ := List.mem_flatMap.mp hdata
        simp only [List.mem_cons, List.not_mem_nil, or_false] at hx
        rcases hx with h1 | h1 | h1
        · exact h1 ▸ getD_mem_of_lt wordList _ (Nat.mod_lt _ hn) ""
        · exact h1 ▸ getD_mem_of_lt wordList _ (Nat.mod_lt _ hn) ""
        · exact h1 ▸ getD_mem_of_lt wordList _ (Nat.mod_lt _ hn) ""
      · rw [List.mem_singleton] at hcheck
        exact hcheck ▸
          getD_mem_of_lt wordList _ (Nat.mod_lt _ hn) ""
  have hlen : ∀ input : List Nat, input.length % 4 = 0 →
      ∃ ws, mnemonics_encode hashVal wordList input = some ws ∧
        ws.length = 3 * (input.length / 4) + 1 := by
    intro input hmod
    rw [mnemonics_encode, if_neg (by omega)]
    refine ⟨_, rfl, ?_⟩
    rw [List.length_append, flatMap_three_length, bytes_to_uint32_list_length]
    simp
  by_cases h128 : entropy_is_128_bit bytes = true
  · have htake : (bytes.take 16).length = 16 := by
      rw [List.length_take, hb]
      decide
    obtain ⟨ws, henc, hwslen⟩ := hlen (bytes.take 16) (by omega)
    refine ⟨ws, ?_, fun _ => ?_, fun hfalse => absurd h128 (by rw [hfalse]; simp), hmem _ ws henc⟩
    · rw [to_mnemonic_words, if_pos h128]
      exact henc
    · omega
  · obtain ⟨ws, henc, hwslen⟩ := hlen bytes (by omega)
    refine ⟨ws, ?_, fun htrue => absurd htrue h128, fun _ => ?_, hmem _ ws henc⟩
    · rw [to_mnemonic_words, if_neg h128]
      exact henc
    · omega

/-- Counterexample for C6 as stated: a concrete 128-bit entropy encodes to
13 words, not 12 (the 12 data words plus the trailing checksum word). -/
theorem to_mnemonic_words_counterexample :
    Option.map List.length
        (to_mnemonic_words (fun _ => 0) (List.replicate 2048 "w") (List.replicate 32 0)) =
      some 13 ∧ (13 : Nat) ≠ 12 := by
  constructor
  · decide
  · decide

/-- Witness for C6 at a concrete hash, word list and entropy. -/
theorem to_mnemonic_words_count_witness :
    ∃ ws, to_mnemonic_words (fun _ => 1) (List.replicate 2048 "w")
        (List.replicate 16 7 ++ List.replicate 16 0) = some ws ∧
      (entropy_is_128_bit (List.replicate 16 7 ++ List.replicate 16 0) = true →
        ws.length = 13) ∧
      (entropy_is_128_bit (List.replicate 16 7 ++ List.replicate 16 0) = false →
        ws.length = 25) ∧
      ∀ w ∈ ws, w ∈ List.replicate 2048 "w" :=
  to_mnemonic_words_count (fun _ => 1) (List.replicate 2048 "w")
    (List.replicate 16 7 ++ List.replicate 16 0) (by rw [List.length_replicate])
    (by rw [List.length_append, List.length_replicate, List.length_replicate])

/-- A value that is no power of two is rejected by
`calculate_base2_exponent`. -/
theorem sorted_insert_length {α : Type} (le : α → α → Bool) (x : α) :
    ∀ l : List α, (sorted_insert le x l).length = l.length + 1
  | [] => rfl
  | y :: ys => by
    rw [sorted_insert]
    by_cases hle : le x y
    · rw [if_pos hle]
      rfl
    · rw [if_neg hle, List.length_cons, sorted_insert_length le x ys, List.length_cons]

theorem insertion_sort_length {α : Type} (le : α → α → Bool) (keys : List α) :
    (insertion_sort le keys).length = keys.length := by
  induction keys with
  | nil => rfl
  | cons k ks ih =>
    rw [insertion_sort, List.foldr_cons, sorted_insert_length, List.length_cons]
    rw [insertion_sort] at ih
    rw [ih]

theorem calc_base2_not_pow (n : Nat) (h : ∀ k : Nat, n ≠ 2 ^ k) :
    calculate_base2_exponent n = (false, 0) := by
  have hp2r : pow2_round n ≠ n := by
    rw [pow2_round]
    by_cases hz : n ≠ 0 ∧ n &&& (n - 1) = 0
    · exfalso
      rcases (land_pred_eq_zero_iff n).mp hz.2 with h0 | ⟨k, hk⟩
      · exact hz.1 h0
      · exact h k hk
    · rw [if_neg hz]
      intro heq
      exact h _ heq.symm
  rw [calculate_base2_exponent, if_pos hp2r]

/-- C8: `Triptych::check_ring_signature` returns `false` (no guard throws)
whenever the ring has a duplicate key, or its size is not a power of two,
or its size is below 4, or the public-key and commitment lists have
different lengths — for any remainder `rest` of the verification. -/
theorem triptych_check_guards (rest : Bool) (public_keys commitments : List Nat)
    (h : ¬public_keys.Nodup ∨ (∀ k : Nat, public_keys.length ≠ 2 ^ k) ∨
      public_keys.length < 4 ∨ public_keys.length ≠ commitments.length) :
    triptych_check_ring_signature rest public_keys commitments = false := by
  by_cases hdup : (dedupe_and_sort_keys (fun a b => decide (b ≤ a)) public_keys).length ≠
      public_keys.length
  · rw [triptych_check_ring_signature, if_pos hdup]
  have hnodup : public_keys.Nodup := by
    have hlen := not_not.mp hdup
    rw [dedupe_and_sort_keys, insertion_sort_length] at hlen
    exact List.dedup_eq_self.mp ((List.dedup_sublist public_keys).eq_of_length hlen)
  have hstep : triptych_check_ring_signature rest public_keys commitments =
      if (calculate_base2_exponent public_keys.length).1 = false ∨
          (calculate_base2_exponent public_keys.length).2 < 2 then false
      else if public_keys.length ≠ commitments.length then false
      else rest := by
    rw [triptych_check_ring_signature, if_neg hdup]
  rcases h with hd | hpow | hlt | hne
  · exact absurd hnodup hd
  · rw [hstep, if_pos (Or.inl (by rw [calc_base2_not_pow _ hpow]))]
  · have hsmall : public_keys.length = 0 ∨ public_keys.length = 1 ∨
        public_keys.length = 2 ∨ public_keys.length = 3 := by omega
    rcases hsmall with h0 | h1 | h2 | h3
    · rw [hstep, h0, if_pos (Or.inl (by
        rw [calc_base2_not_pow 0 (fun k => (Nat.two_pow_pos k).ne)]))]
    · rw [hstep, h1, if_pos (Or.inr (by decide))]
    · rw [hstep, h2, if_pos (Or.inr (by decide))]
    · rw [hstep, h3, if_pos (Or.inl (by
        rw [calc_base2_not_pow 3 (fun k => by
          rcases k with _ | _ | k
          · decide
          · decide
          · have : 2 ^ 2 ≤ 2 ^ (k + 2) := Nat.pow_le_pow_right (by omega) (by omega)
            omega)]))]
  · rw [hstep]
    by_cases hfm : (calculate_base2_exponent public_keys.length).1 = false ∨
        (calculate_base2_exponent public_keys.length).2 < 2
    · rw [if_pos hfm]
    · rw [if_neg hfm, if_pos hne]

/-- Witness for C8: a 4-ring with a duplicated key is rejected whatever the
remainder of the verification would say. -/
theorem triptych_check_guards_witness :
    triptych_check_ring_signature true [1, 1, 2, 3] [1, 2, 3, 4] = false :=
  triptych_check_guards true [1, 1, 2, 3] [1, 2, 3, 4] (Or.inl (by decide))

/-- C10: `timestamp()` returns the decoded varint exactly when it lies in
the inclusive range `[1640995200, 10413792000]`, and `0` for every
out-of-range or undecodable leading-byte value. -/
theorem entropy_timestamp_spec (bytes : List Nat) :
    (∀ ts, varint_decode bytes = some ts →
      1640995200 ≤ ts → ts ≤ 10413792000 → entropy_timestamp bytes = ts) ∧
    (∀ ts, varint_decode bytes = some ts →
      (ts < 1640995200 ∨ 10413792000 < ts) → entropy_timestamp bytes = 0) ∧
    (varint_decode bytes = none → entropy_timestamp bytes = 0) := by
  refine ⟨?_, ?_, ?_⟩
  · intro ts hdec hlo hhi
    simp only [entropy_timestamp, hdec]
    exact if_pos ⟨hlo, hhi⟩
  · intro ts hdec hout
    simp only [entropy_timestamp, hdec]
    refine if_neg fun hcon => ?_
    have h1 : 1640995200 ≤ ts := hcon.1
    have h2 : ts ≤ 10413792000 := hcon.2
    omega
  · intro hdec
    simp only [entropy_timestamp, hdec]

/-- Witness for C10: the varint encoding of `1640995200` in the leading
bytes (padded to the 32 entropy bytes) is returned; bumping the final varint
byte past the maximum yields `0`; an empty byte string (undecodable) yields
`0`. -/
theorem entropy_timestamp_spec_witness :
    entropy_timestamp ([128, 179, 190, 142, 6] ++ List.replicate 27 0) = 1640995200 ∧
    entropy_timestamp ([128, 128, 128, 128, 128, 6] ++ List.replicate 26 0) = 0 ∧
    entropy_timestamp [] = 0 :=
  ⟨(entropy_timestamp_spec _).1 1640995200 (by decide) (by omega) (by omega),
    (entropy_timestamp_spec _).2.1 206158430208 (by decide) (by omega),
    (entropy_timestamp_spec _).2.2 (by decide)⟩

/-- Witness for C5 at `a = 3`, `k = 2` and the non-power-of-two `count = 3`. -/
theorem pow_sum_spec_witness :
    pow_sum (3 : Scalar) (2 ^ 2) = some (∑ i ∈ Finset.range (2 ^ 2), (3 : Scalar) ^ i) ∧
      pow_sum (3 : Scalar) 3 = none :=
  ⟨(pow_sum_spec 3).1 2 (by omega),
    (pow_sum_spec 3).2.1 3 (by omega) (fun j h => by
      rcases j with _ | _ | j
      · omega
      · omega
      · have : 2 ^ 2 ≤ 2 ^ (j + 2) := Nat.pow_le_pow_right (by omega) (by omega)
        omega)⟩

theorem getD_set_self {α : Type} (l : List α) {i : Nat} (h : i < l.length) (a d : α) :
    (l.set i a).getD i d = a := by
  rw [List.getD_eq_getElem?_getD, List.getElem?_set_self h]
  rfl

theorem getD_set_ne {α : Type} (l : List α) {i j : Nat} (hij : i ≠ j) (a d : α) :
    (l.set i a).getD j d = l.getD j d := by
  rw [List.getD_eq_getElem?_getD, List.getElem?_set_ne hij, ← List.getD_eq_getElem?_getD]

/-- A list whose positions are all non-zero fails the zero-scan of
`complete_ring_signature`. -/
theorem any_zero_eq_false {l : List Scalar} (hl : ∀ i, i < l.length → l.getD i 0 ≠ 0) :
    (l.any fun s => decide (s = 0)) = false := by
  rw [List.any_eq_false]
  intro x hx
  simp only [decide_eq_true_eq]
  obtain ⟨i, hi, rfl⟩ := List.mem_iff_getElem.mp hx
  have hne := hl i hi
  rw [List.getD_eq_getElem?_getD, List.getElem?_eq_getElem hi] at hne
  exact hne

/-- The challenge loop writes through `List.set`, so it preserves the length
of the challenge array. -/
theorem clsag_rounds_length (hs : clsag_hashes) (useC : Bool) (muC : Scalar)
    (key_image : Pt) (public_keys public_commitments : List Pt)
    (pseudo_commitment commitment_image : Pt) (s : List Scalar) (n : Nat) :
    ∀ (idxs : List Nat) (h h2 : List Scalar),
      clsag_rounds hs useC muC key_image public_keys public_commitments
        pseudo_commitment commitment_image s n h idxs = some h2 →
      h2.length = h.length := by
  intro idxs
  induction idxs with
  | nil =>
    intro h h2 heq
    simp only [clsag_rounds] at heq
    injection heq with heq
    rw [heq]
  | cons idx rest ih =>
    intro h h2 heq
    simp only [clsag_rounds] at heq
    split at heq
    · split at heq
      · exact absurd heq (by simp)
      · have hrec := ih _ _ heq
        rwa [List.length_set] at hrec
    · split at heq
      · exact absurd heq (by simp)
      · have hrec := ih _ _ heq
        rwa [List.length_set] at hrec

set_option maxHeartbeats 1600000 in
/-- C2: for a CLSAG signing run with commitments (ring `{P_i}`, signer index
`π`, secret `x`, blinding delta `z = r_in - r'`), the signature obtained by
`prepare_ring_signature` followed by
`complete_ring_signature(x, π, sig, h, μ_P)` carries the originally drawn
random `s_i` at every `i ≠ π`, and at `π` the value
`α - h_π·μ_P·x - h_π·μ_C·z` (prepare subtracts the `μ_C·z` share, complete
the `μ_P·x` share).  The hypotheses beyond the run's success are the
non-zero side conditions `complete_ring_signature` checks on its inputs. -/
theorem clsag_prepare_complete_scalars (hs : clsag_hashes) (alpha : Scalar)
    (s_rand : List Scalar) (key_image : Pt) (public_keys : List Pt)
    (real_output_index : Nat) (r_in r2 : Scalar) (public_commitments : List Pt)
    (C2 : Pt) (x : Scalar) (sig : crypto_clsag_signature_t) (h : List Scalar)
    (muP : Scalar)
    (hidx : real_output_index < public_keys.length)
    (hlen : s_rand.length = public_keys.length)
    (hprep : clsag_prepare_ring_signature hs alpha s_rand key_image public_keys
      real_output_index r_in public_commitments r2 C2 = some (sig, h, muP))
    (hr_in : r_in ≠ 0) (hr2 : r2 ≠ 0)
    (hclen : public_commitments.length = public_keys.length)
    (hC2 : C2 ≠ 0)
    (hx : x ≠ 0)
    (hs_nz : ∀ i, i < s_rand.length → s_rand.getD i 0 ≠ 0)
    (hh_nz : ∀ i, i < h.length → h.getD i 0 ≠ 0)
    (hsπ : alpha - h.getD real_output_index 0 * (r_in - r2) * hs.muC ≠ 0) :
    ∃ final, clsag_complete_ring_signature x real_output_index sig h muP = some final ∧
      (∀ i, i < public_keys.length → i ≠ real_output_index →
        final.scalars.getD i 0 = s_rand.getD i 0) ∧
      final.scalars.getD real_output_index 0 =
        alpha - h.getD real_output_index 0 * hs.muP * x -
          h.getD real_output_index 0 * hs.muC * (r_in - r2) := by
  have huseC : clsag_use_commitments r_in public_commitments public_keys r2 C2 = true := by
    simp [clsag_use_commitments, scalar_valid, point_valid, hr_in, hr2, hclen, hC2]
  simp only [clsag_prepare_ring_signature] at hprep
  split at hprep
  · exact absurd hprep (by simp)
  rename_i hg1
  split at hprep
  · exact absurd hprep (by simp)
  rename_i hg2
  split at hprep
  · exact absurd hprep (by simp)
  rename_i hg2b
  split at hprep
  · exact absurd hprep (by simp)
  rename_i hg3
  split at hprep
  · exact absurd hprep (by simp)
  rename_i hg4
  split at hprep
  · exact absurd hprep (by simp)
  rename_i hg5
  split at hprep
  · exact absurd hprep (by simp)
  rename_i hg6
  split at hprep
  · exact absurd hprep (by simp)
  rename_i hg7
  split at hprep
  · exact absurd hprep (by simp)
  rename_i hg8
  simp only [clsag_prepare_body, huseC, eq_self_iff_true, if_true] at hprep
  split at hprep
  · exact absurd hprep (by simp)
  rename_i hlist hrounds
  injection hprep with hprep
  injection hprep with hsig hprep
  injection hprep with hh hmu
  subst hsig
  subst hh
  subst hmu
  have hmuP : hs.muP ≠ 0 := hg6
  have hz : r_in - r2 ≠ 0 := by
    intro hzz
    exact hg5 (by rw [huseC, hzz]; simp)
  have hlistlen : hlist.length = public_keys.length := by
    have := clsag_rounds_length _ _ _ _ _ _ _ _ _ _ _ _ _ hrounds
    rwa [List.length_set, List.length_replicate] at this
  have hn : 0 < public_keys.length := by omega
  have hslen0 : (s_rand.set real_output_index alpha).length = public_keys.length := by
    rw [List.length_set, hlen]
  have hSgetπ : ((s_rand.set real_output_index alpha).set real_output_index
      ((s_rand.set real_output_index alpha).getD real_output_index 0 -
        hlist.getD real_output_index 0 * (r_in - r2) * hs.muC)).getD real_output_index 0 =
      alpha - hlist.getD real_output_index 0 * (r_in - r2) * hs.muC := by
    rw [getD_set_self _ (by omega), getD_set_self _ (by omega)]
  have hSlen : ((s_rand.set real_output_index alpha).set real_output_index
      ((s_rand.set real_output_index alpha).getD real_output_index 0 -
        hlist.getD real_output_index 0 * (r_in - r2) * hs.muC)).length =
      public_keys.length := by
    rw [List.length_set, hslen0]
  have hSentries : ∀ i, i < ((s_rand.set real_output_index alpha).set real_output_index
      ((s_rand.set real_output_index alpha).getD real_output_index 0 -
        hlist.getD real_output_index 0 * (r_in - r2) * hs.muC)).length →
      ((s_rand.set real_output_index alpha).set real_output_index
        ((s_rand.set real_output_index alpha).getD real_output_index 0 -
          hlist.getD real_output_index 0 * (r_in - r2) * hs.muC)).getD i 0 ≠ 0 := by
    intro i hi
    by_cases hiπ : i = real_output_index
    · subst hiπ
      rw [hSgetπ]
      exact hsπ
    · rw [getD_set_ne _ (fun hc => hiπ hc.symm),
        getD_set_ne _ (fun hc => hiπ hc.symm)]
      exact hs_nz i (by omega)
  simp only [clsag_complete_ring_signature]
  rw [if_neg (by
    intro hemp
    rw [hemp] at hSlen
    simp at hSlen
    omega)]
  rw [if_neg (by rw [hSlen]; omega)]
  rw [if_neg (by rw [hSlen, hlistlen]; exact fun hc => hc rfl)]
  rw [if_neg (not_not_intro ⟨by simp [scalar_valid, hx], by
      simp only [scalar_valid, decide_eq_true_eq]
      exact hh_nz 0 (by omega), by
      simp only [scalar_valid, decide_eq_true_eq]
      exact hmuP⟩)]
  rw [if_neg (by rw [any_zero_eq_false hSentries]; exact Bool.false_ne_true)]
  rw [if_neg (by
    rw [any_zero_eq_false (fun i hi => hh_nz i hi)]
    exact Bool.false_ne_true)]
  refine ⟨_, rfl, ?_, ?_⟩
  · intro i hi hiπ
    simp only
    rw [getD_set_ne _ (fun hc => hiπ hc.symm), getD_set_ne _ (fun hc => hiπ hc.symm),
      getD_set_ne _ (fun hc => hiπ hc.symm)]
  · simp only
    rw [getD_set_self _ (by rw [hSlen]; omega), hSgetπ]
    ring

/-- Witness for C2: a 2-ring with the signer at index 0, `α = 5`,
`s_rand = [7, 9]`, `z = 2 - 1 = 1`, commitments satisfying
`8·(C_0 - C') = z·G`, constant round challenges `1` and `Hp = id`. -/
theorem clsag_prepare_complete_scalars_witness :
    ∃ final, clsag_complete_ring_signature 1 0
        (⟨[4, 9], 1, 1, 1⟩ : crypto_clsag_signature_t) [1, 1] 1 = some final ∧
      (∀ i, i < ([1, 2] : List Pt).length → i ≠ 0 →
        final.scalars.getD i 0 = ([7, 9] : List Scalar).getD i 0) ∧
      final.scalars.getD 0 0 = 5 - 1 * 1 * 1 - 1 * 1 * (2 - 1) :=
  clsag_prepare_complete_scalars ⟨1, 1, fun _ _ => 1, fun p => p⟩ 5 [7, 9] 3 [1, 2] 0 2 1
    [1 + INV_EIGHT, 5] 1 1 ⟨[4, 9], 1, 1, 1⟩ [1, 1] 1
    (by decide) (by decide) (by decide) (by decide) (by decide) (by decide) (by decide)
    (by decide)
    (fun i hi => by
      have hi2 : i < 2 := hi
      interval_cases i <;> decide)
    (fun i hi => by
      have hi2 : i < 2 := hi
      interval_cases i <;> decide)
    (by decide)
